import Mathlib

/-!
Verification of the Rules v2 query parser and evaluator
(`src/services/query_parser.py` and `src/services/query_evaluator.py`).

The parser is embedded as functions over `List Char`, carrying the
remaining input explicitly (the Python implementation only ever moves
`self.pos` forward, so the remaining suffix is a faithful state).  The
two parsing loops (`QueryParser.parse` and `QueryParser._parse_group`)
can fail to make progress when `_parse_term` returns `None` without
advancing, so they are embedded with an explicit fuel parameter;
`none` as a result means the fuel ran out, and a result that is `none`
for every fuel models non-termination of the Python loop.

Character tests are written on `Char.toNat` code points (32 is a space,
34 a double quote, 40 and 41 the parentheses, 58 a colon, 92 a
backslash, 9, 10 and 13 tab, newline and carriage return).
-/

namespace RulesQuery

/-- Whitespace recognized by `QueryParser._skip_whitespace` (space, tab,
newline, carriage return). -/
def isWsC (c : Char) : Bool :=
  c.toNat == 32 || c.toNat == 9 || c.toNat == 10 || c.toNat == 13

/-- The whitespace stripped by Python `str.strip()` (used by
`parse_query`): the characters for which `str.isspace()` holds, that is
codes 9-13, 28-31 and 32, NEL (133), no-break space (160), ogham space
(5760), the en/em spaces 8192-8202, line and paragraph separators
(8232, 8233), narrow no-break space (8239), medium mathematical space
(8287) and ideographic space (12288). -/
def isPyWs (c : Char) : Bool :=
  isWsC c || c.toNat == 11 || c.toNat == 12 ||
    (28 ≤ c.toNat && c.toNat ≤ 31) || c.toNat == 133 || c.toNat == 160 ||
    c.toNat == 5760 || (8192 ≤ c.toNat && c.toNat ≤ 8202) || c.toNat == 8232 ||
    c.toNat == 8233 || c.toNat == 8239 || c.toNat == 8287 || c.toNat == 12288

/-- First character of a property name: the regex `[a-z]` under
`re.IGNORECASE`, that is an ASCII letter of either case. -/
def isPropStartC (c : Char) : Bool :=
  (97 ≤ c.toNat && c.toNat ≤ 122) || (65 ≤ c.toNat && c.toNat ≤ 90)

/-- An ASCII digit, as matched by the regex class `\d` on ASCII input. -/
def isDigitC (c : Char) : Bool :=
  48 ≤ c.toNat && c.toNat ≤ 57

/-- Later characters of a property name: the regex `[a-z0-9-]` under
`re.IGNORECASE` (45 is the hyphen). -/
def isPropC (c : Char) : Bool :=
  isPropStartC c || isDigitC c || c.toNat == 45

/-- Characters that terminate an unquoted value in
`_parse_unquoted_string`: whitespace and the two parentheses. -/
def isStopC (c : Char) : Bool :=
  isWsC c || c.toNat == 40 || c.toNat == 41

/-- AST node: `Term` or `OrGroup` from `query_parser.py` (both can appear
inside `AndGroup.items` and inside `OrGroup.terms`). -/
inductive QItem where
  | term (property value : String)
  | orGroup (terms : List QItem)
deriving Repr

/-- Top-level AND of terms and groups (`AndGroup`). -/
structure AndGroup where
  items : List QItem
deriving Repr

/-- The four `raise ParseError(...)` sites in `query_parser.py`. -/
inductive ParseErr where
  | expectedColon (property : String)
  | unclosedQuote
  | unclosedParen
  | expectedValue
deriving Repr, DecidableEq

/-- `QueryParser._skip_whitespace`. -/
def skipWs : List Char → List Char
  | [] => []
  | c :: cs => if isWsC c then skipWs cs else c :: cs

/-- `QueryParser._parse_quoted_string`, after the opening quote has been
consumed; `acc` holds the (reversed) characters collected so far.  A
backslash not at the end of input consumes the next character verbatim. -/
def parseQuoted : List Char → List Char → Except ParseErr (String × List Char)
  | [], _ => .error .unclosedQuote
  | c :: rest, acc =>
    if c.toNat == 34 then .ok (String.mk acc.reverse, rest)
    else if c.toNat == 92 then
      match rest with
      | [] => parseQuoted [] (c :: acc)
      | c2 :: rest2 => parseQuoted rest2 (c2 :: acc)
    else parseQuoted rest (c :: acc)

/-- `QueryParser._parse_unquoted_string`. -/
def parseUnquoted (s : List Char) : Except ParseErr (String × List Char) :=
  let v := s.takeWhile (fun c => !isStopC c)
  if v.isEmpty then .error .expectedValue
  else .ok (String.mk v, s.dropWhile (fun c => !isStopC c))

/-- `QueryParser._parse_value`. -/
def parseValue (s : List Char) : Except ParseErr (String × List Char) :=
  match s with
  | c :: rest => if c.toNat == 34 then parseQuoted rest [] else parseUnquoted (c :: rest)
  | [] => parseUnquoted []

/-- `QueryParser._parse_term`.  Returns `(none, rest)` when no property name
can be read at the current position (the Python code returns `None` without
advancing `self.pos` past the whitespace it skipped). -/
def parseTerm (s : List Char) : Except ParseErr (Option (String × String) × List Char) :=
  match skipWs s with
  | [] => .ok (none, [])
  | c :: cs =>
    if isPropStartC c then
      let raw := c :: cs.takeWhile isPropC
      let prop := String.mk (raw.map Char.toLower)
      match cs.dropWhile isPropC with
      | c2 :: rest2 =>
        if c2.toNat == 58 then
          match parseValue rest2 with
          | .ok (v, rest3) => .ok (some (prop, v), rest3)
          | .error e => .error e
        else .error (.expectedColon prop)
      | [] => .error (.expectedColon prop)
    else .ok (none, c :: cs)

/-- The `OR` keyword test in `_parse_group`: the next two characters are
`OR` (case-insensitively: codes 79/111 then 82/114) and the character
after them, if any, is whitespace or a closing parenthesis. -/
def isOrKw : List Char → Bool
  | a :: b :: rest =>
    (a.toNat == 79 || a.toNat == 111) && (b.toNat == 82 || b.toNat == 114) &&
      (match rest with
       | [] => true
       | c :: _ => isWsC c || c.toNat == 41)
  | _ => false

/-- The loop of `QueryParser._parse_group`, entered after the opening
parenthesis was consumed and the initial whitespace skipped.  `acc` holds
the members parsed so far, in reverse.  Consuming the closing parenthesis
is folded into the loop exit; reaching the end of input is the
`Unclosed parenthesis` error.  `none` means the fuel ran out. -/
def groupLoop : Nat → List Char → List QItem → Option (Except ParseErr (List QItem × List Char))
  | 0, _, _ => none
  | fuel + 1, s, acc =>
    match s with
    | [] => some (.error .unclosedParen)
    | c :: rest =>
      if c.toNat == 41 then some (.ok (acc.reverse, rest))
      else
        match skipWs (c :: rest) with
        | [] => groupLoop fuel [] acc
        | c1 :: rest1 =>
          if c1.toNat == 40 then
            match groupLoop fuel (skipWs rest1) [] with
            | none => none
            | some (.error e) => some (.error e)
            | some (.ok (ts, rest2)) => groupLoop fuel rest2 (.orGroup ts :: acc)
          else if isOrKw (c1 :: rest1) then
            groupLoop fuel (skipWs ((c1 :: rest1).drop 2)) acc
          else
            match parseTerm (c1 :: rest1) with
            | .error e => some (.error e)
            | .ok (none, s2) => groupLoop fuel s2 acc
            | .ok (some (p, v), s2) => groupLoop fuel s2 (.term p v :: acc)

/-- The loop of `QueryParser.parse`.  `acc` holds the items parsed so far,
in reverse.  `none` means the fuel ran out. -/
def parseLoop : Nat → List Char → List QItem → Option (Except ParseErr (List QItem))
  | 0, _, _ => none
  | fuel + 1, s, acc =>
    match s with
    | [] => some (.ok acc.reverse)
    | _ =>
      match skipWs s with
      | [] => some (.ok acc.reverse)
      | c1 :: rest1 =>
        if c1.toNat == 40 then
          match groupLoop fuel (skipWs rest1) [] with
          | none => none
          | some (.error e) => some (.error e)
          | some (.ok (ts, rest2)) => parseLoop fuel rest2 (.orGroup ts :: acc)
        else
          match parseTerm (c1 :: rest1) with
          | .error e => some (.error e)
          | .ok (none, s2) => parseLoop fuel s2 acc
          | .ok (some (p, v), s2) => parseLoop fuel s2 (.term p v :: acc)

/-- Python `str.strip()` on ASCII input. -/
def pyStrip (s : List Char) : List Char :=
  ((s.dropWhile isPyWs).reverse.dropWhile isPyWs).reverse

/-- `parse_query`, with explicit fuel for the parsing loops. -/
def parseQueryFuel (fuel : Nat) (q : String) : Option (Except ParseErr AndGroup) :=
  let s := pyStrip q.data
  if s.isEmpty then some (.ok ⟨[]⟩)
  else
    match parseLoop fuel s [] with
    | none => none
    | some (.error e) => some (.error e)
    | some (.ok items) => some (.ok ⟨items⟩)

/-- `parse_query` at a canonical fuel that is ample for any terminating
run (every loop iteration of a terminating run consumes input, apart from
a bounded number of loop exits). -/
def parseQuery (q : String) : Option (Except ParseErr AndGroup) :=
  parseQueryFuel (3 * q.length + 3) q

/-- `Term.__repr__`: quote the value exactly when it contains a space. -/
def renderTerm (p v : String) : List Char :=
  p.data ++ ':' :: (if v.data.any (fun c => c.toNat == 32) then '"' :: (v.data ++ ['"']) else v.data)

mutual

/-- `repr` of a single item: `Term.__repr__` or `OrGroup.__repr__`. -/
def renderItem : QItem → List Char
  | .term p v => renderTerm p v
  | .orGroup ts => '(' :: renderMembers ts ++ [')']

/-- The `' OR '.join` inside `OrGroup.__repr__`. -/
def renderMembers : List QItem → List Char
  | [] => []
  | [t] => renderItem t
  | t :: ts => renderItem t ++ (' ' :: 'O' :: 'R' :: ' ' :: renderMembers ts)

end

/-- The `' '.join` inside `AndGroup.__repr__`. -/
def renderAnd : List QItem → List Char
  | [] => []
  | [t] => renderItem t
  | t :: ts => renderItem t ++ ' ' :: renderAnd ts

/-- `query_to_string`. -/
def queryToString (a : AndGroup) : String :=
  String.mk (renderAnd a.items)

/-!
## Evaluator (`query_evaluator.py`)

An event is a record of optional fields matching the database columns the
evaluator reads; a `none` field models a key absent from the event dict.
The `attendees` field is modelled in its already-decoded list form.
-/

/-- An event dict, with `none` for an absent key. -/
structure Event where
  title : Option String := none
  description : Option String := none
  start_time : Option String := none
  end_time : Option String := none
  attendees : Option (List String) := none
  is_recurring : Option Bool := none
  recurrence_id : Option String := none
  my_response_status : Option String := none
  transparency : Option String := none
  visibility : Option String := none
  event_color : Option String := none
deriving Repr

/-- The completely absent event: every key missing from the dict. -/
def emptyEvent : Event := {}

/-- Python `(d.get(k) or default)`: an absent key or an empty string both
fall back to the default. -/
def getOr (o : Option String) (d : String) : String :=
  match o with
  | none => d
  | some s => if s == "" then d else s

/-- Python `str.lower()` on ASCII input. -/
def lowerStr (s : String) : String :=
  String.mk (s.data.map Char.toLower)

/-- `QueryEvaluator._normalize_for_match`: strip straight quotes (codes 34
and 39) and curly quotes (codes 8216-8221). -/
def normChars (s : List Char) : List Char :=
  s.filter (fun c =>
    !(c.toNat == 34 || c.toNat == 39 || c.toNat == 8220 ||
      c.toNat == 8221 || c.toNat == 8216 || c.toNat == 8217))

/-- Python substring test `needle in hay` on strings. -/
def hasSub (hay needle : List Char) : Bool :=
  needle.isPrefixOf hay ||
    match hay with
    | [] => false
    | _ :: t => hasSub t needle

/-- Python `hay.endswith(needle)`. -/
def hasSuffix (hay needle : List Char) : Bool :=
  needle.reverse.isPrefixOf hay.reverse

/-- The `attendees` property of `QueryEvaluator`: an absent key (or a JSON
decoding failure, out of scope here) yields the empty list. -/
def attendeesList (ev : Event) : List String :=
  ev.attendees.getD []

/-- The `domains` property: lower-cased domain parts of attendee addresses
that contain an `@` (the part after the first `@`, as `split('@')[1]`). -/
def domains (ev : Event) : List String :=
  (attendeesList ev).filterMap (fun em =>
    match em.splitOn "@" with
    | _ :: d :: _ => some (lowerStr d)
    | _ => none)

/-- `QueryEvaluator._match_boolean`. -/
def matchBoolean (v : String) (actual : Bool) : Bool :=
  if v == "yes" || v == "true" || v == "1" || v == "on" then actual
  else if v == "no" || v == "false" || v == "0" || v == "off" then !actual
  else false

/-- The `start.replace` of a `Z` by `+00:00` applied before
`datetime.fromisoformat`. -/
def replaceZ : List Char → List Char
  | [] => []
  | c :: r =>
    if c.toNat == 90 then '+' :: '0' :: '0' :: ':' :: '0' :: '0' :: replaceZ r
    else c :: replaceZ r

/-- The numeric value of an ASCII digit character. -/
def digitVal (c : Char) : Nat := c.toNat - 48

/-- Two ASCII digits read as a two-digit number. -/
def twoDigits (a b : Char) : Option Nat :=
  if isDigitC a && isDigitC b then some (10 * digitVal a + digitVal b) else none

/-- The date, hour and minute of a parsed timestamp. -/
structure DT where
  year : Nat
  month : Nat
  day : Nat
  hour : Nat
  minute : Nat
deriving Repr

/-- Trailing `+HH:MM[:SS]` / `-HH:MM[:SS]` offset, or nothing.  As in
`datetime.fromisoformat`, the minute and second fields may exceed 59
(they are normalized), but the total offset must stay strictly below 24
hours, else `ValueError`. -/
def offsetOk : List Char → Bool
  | [] => true
  | sg :: h1 :: h2 :: ':' :: m1 :: m2 :: r =>
    (sg.toNat == 43 || sg.toNat == 45) &&
      (match twoDigits h1 h2, twoDigits m1 m2 with
       | some oh, some om =>
         (match r with
          | [] => decide (oh * 3600 + om * 60 < 86400)
          | ':' :: s1 :: s2 :: [] =>
            (match twoDigits s1 s2 with
             | some os => decide (oh * 3600 + om * 60 + os < 86400)
             | none => false)
          | _ => false)
       | _, _ => false)
  | _ => false

/-- Optional `:SS` seconds, then an optional offset. -/
def secondsOk : List Char → Bool
  | ':' :: s1 :: s2 :: r =>
    isDigitC s1 && isDigitC s2 && decide (10 * digitVal s1 + digitVal s2 ≤ 59) && offsetOk r
  | r => offsetOk r

/-- Leap-year test of the proleptic Gregorian calendar used by
`datetime`. -/
def isLeapYear (y : Nat) : Bool :=
  y % 4 == 0 && (!(y % 100 == 0) || y % 400 == 0)

/-- The number of days of a month, as `datetime` validates it. -/
def daysInMonth (y mo : Nat) : Nat :=
  if mo == 2 then (if isLeapYear y then 29 else 28)
  else if mo == 4 || mo == 6 || mo == 9 || mo == 11 then 30
  else 31

/-- Models `datetime.fromisoformat` (as used by the evaluator) on strings
of the shape `YYYY-MM-DD`, optionally followed by a one-character
separator (any character, as in CPython 3.11) and `HH:MM[:SS][offset]`.
The fields are validated as `datetime` does: the year is at least 1, the
day fits the month of the real calendar, hour at most 23, minute and
second at most 59, the offset strictly below 24 hours; `none` models
the `ValueError` raised when validation fails.  Formats the evaluator
never receives (fractional seconds, `YYYYMMDD`, week dates, hour-only
times) are out of the modelled subset and also map to `none`. -/
def fromisoDT (s : List Char) : Option DT :=
  match s with
  | y1 :: y2 :: y3 :: y4 :: '-' :: m1 :: m2 :: '-' :: d1 :: d2 :: rest =>
    if isDigitC y1 && isDigitC y2 && isDigitC y3 && isDigitC y4 then
      let yr := 1000 * digitVal y1 + 100 * digitVal y2 + 10 * digitVal y3 + digitVal y4
      match twoDigits m1 m2, twoDigits d1 d2 with
      | some mo, some da =>
        if 1 ≤ yr && 1 ≤ mo && mo ≤ 12 && 1 ≤ da && da ≤ daysInMonth yr mo then
          match rest with
          | [] => some ⟨yr, mo, da, 0, 0⟩
          | _sep :: h1 :: h2 :: ':' :: n1 :: n2 :: rest2 =>
            (match twoDigits h1 h2, twoDigits n1 n2 with
             | some hh, some nn =>
               if hh ≤ 23 && nn ≤ 59 && secondsOk rest2 then some ⟨yr, mo, da, hh, nn⟩
               else none
             | _, _ => none)
          | _ => none
        else none
      | _, _ => none
    else none
  | _ => none

/-- `datetime.weekday()`: 0 is Monday. -/
def dowOfDate (y m d : Nat) : Nat :=
  let a := (14 - m) / 12
  let y2 := y - a
  let m2 := m + 12 * a - 2
  let w := (d + y2 + y2 / 4 - y2 / 100 + y2 / 400 + (31 * m2) / 12) % 7
  (w + 6) % 7

/-- The `DAY_NAMES` lookup. -/
def dayIdx (v : String) : Option Nat :=
  if v == "mon" || v == "monday" then some 0
  else if v == "tue" || v == "tuesday" then some 1
  else if v == "wed" || v == "wednesday" then some 2
  else if v == "thu" || v == "thursday" then some 3
  else if v == "fri" || v == "friday" then some 4
  else if v == "sat" || v == "saturday" then some 5
  else if v == "sun" || v == "sunday" then some 6
  else none

/-- The optional `[<>]=?` operator of a time-of-day value (codes 60, 62,
61 are `<`, `>`, `=`): the operator (where `"="` stands for the absent
operator, as in the code) and the remaining characters. -/
def splitTimeOp (s : List Char) : String × List Char :=
  match s with
  | a :: b :: r =>
    if a.toNat == 60 && b.toNat == 61 then ("<=", r)
    else if a.toNat == 62 && b.toNat == 61 then (">=", r)
    else if a.toNat == 60 then ("<", b :: r)
    else if a.toNat == 62 then (">", b :: r)
    else ("=", a :: b :: r)
  | a :: r =>
    if a.toNat == 60 then ("<", r)
    else if a.toNat == 62 then (">", r)
    else ("=", a :: r)
  | [] => ("=", [])

/-- The `(\d{1,2}):(\d{2})` part of the time-of-day regex: a one- or
two-digit hour, a colon and a two-digit minute, read as minutes since
midnight; trailing characters are ignored, exactly as `re.match` ignores
them. -/
def matchClock (s : List Char) : Option Nat :=
  match s with
  | a :: b :: rest =>
    if isDigitC a && isDigitC b then
      match rest with
      | c :: n1 :: n2 :: _ =>
        if c.toNat == 58 && isDigitC n1 && isDigitC n2 then
          some ((10 * digitVal a + digitVal b) * 60 + 10 * digitVal n1 + digitVal n2)
        else none
      | _ => none
    else if isDigitC a && b.toNat == 58 then
      match rest with
      | n1 :: n2 :: _ =>
        if isDigitC n1 && isDigitC n2 then
          some (digitVal a * 60 + 10 * digitVal n1 + digitVal n2)
        else none
      | _ => none
    else none
  | _ => none

/-- The regex match `([<>]=?)?(\d{1,2}):(\d{2})` against a time-of-day
value: operator and target minutes since midnight, or `none` when the
regex does not match at the start of the value. -/
def matchTimeValue (s : List Char) : Option (String × Nat) :=
  let os := splitTimeOp s
  (matchClock os.2).map (fun t => (os.1, t))

/-- `QueryEvaluator._evaluate_term`. -/
def evalTerm (ev : Event) (prop value : String) : Bool :=
  let v := String.mk (normChars (lowerStr value).data)
  if prop == "title" then
    hasSub (normChars (lowerStr (getOr ev.title "")).data) v.data
  else if prop == "description" then
    hasSub (normChars (lowerStr (getOr ev.description "")).data) v.data
  else if prop == "attendees" then
    (attendeesList ev).any (fun em => hasSub (normChars (lowerStr em).data) v.data)
  else if prop == "domain" then
    (domains ev).contains v
  else if prop == "email" then
    ((attendeesList ev).map lowerStr).contains v
  else if prop == "response" then
    let resp := lowerStr (getOr ev.my_response_status "")
    if v == "needsaction" || v == "needs-action" || v == "needs_action" || v == "pending" then
      resp == "needsaction"
    else resp == v
  else if prop == "recurring" then
    matchBoolean v (ev.is_recurring.getD false)
  else if prop == "is-all-day" then
    let st := ev.start_time.getD ""
    let en := ev.end_time.getD ""
    matchBoolean v (hasSub st.data "T00:00:00".data && hasSuffix en.data "T00:00:00".data)
  else if prop == "has-attendees" then
    matchBoolean v (decide (0 < (attendeesList ev).length))
  else if prop == "transparency" then
    let tr := lowerStr (getOr ev.transparency "opaque")
    if v == "free" then tr == "transparent"
    else if v == "busy" then tr == "opaque"
    else tr == v
  else if prop == "visibility" then
    lowerStr (getOr ev.visibility "default") == v
  else if prop == "day-of-week" then
    let st := ev.start_time.getD ""
    if st == "" then false
    else
      match fromisoDT (replaceZ st.data) with
      | none => false
      | some dt =>
        match dayIdx (lowerStr v) with
        | some target => decide (dowOfDate dt.year dt.month dt.day = target)
        | none => false
  else if prop == "time-of-day" then
    let st := ev.start_time.getD ""
    if st == "" then false
    else
      match fromisoDT (replaceZ st.data) with
      | none => false
      | some dt =>
        match matchTimeValue v.data with
        | some (op, target) =>
          let eventTime := dt.hour * 60 + dt.minute
          if op == ">" then decide (eventTime > target)
          else if op == ">=" then decide (eventTime ≥ target)
          else if op == "<" then decide (eventTime < target)
          else if op == "<=" then decide (eventTime ≤ target)
          else decide (eventTime = target)
        | none => false
  else if prop == "color" then
    lowerStr (getOr ev.event_color "") == v
  else if prop == "recurrence-id" then
    lowerStr (getOr ev.recurrence_id "") == v
  else false

mutual

/-- `QueryEvaluator._evaluate_item`. -/
def evalItem (ev : Event) : QItem → Bool
  | .term p v => evalTerm ev p v
  | .orGroup ts => evalAny ev ts

/-- The short-circuiting `any(...)` over the members of an `OrGroup`. -/
def evalAny (ev : Event) : List QItem → Bool
  | [] => false
  | t :: ts => evalItem ev t || evalAny ev ts

end

/-- `QueryEvaluator.evaluate`. -/
def evaluate (ev : Event) (a : AndGroup) : Bool :=
  match a.items with
  | [] => false
  | _ => a.items.all (evalItem ev)

/-- `evaluate_query` (on the canonical-fuel parse). -/
def evaluateQuery (q : String) (ev : Event) : Option (Except ParseErr Bool) :=
  (parseQuery q).map (Except.map (evaluate ev))

/-- The event used in the time-of-day examples of the spec: it starts at
14:30. -/
def eventAt1430 : Event := { start_time := some "2024-01-15T14:30:00" }

/-- The comparison operator of a time-of-day term. -/
inductive TimeOp where
  | lt
  | le
  | gt
  | ge
  | eq
deriving Repr, DecidableEq

/-- The characters of the operator as written in a query value (none for
the implied exact match). -/
def opChars : TimeOp → List Char
  | .lt => ['<']
  | .le => ['<', '=']
  | .gt => ['>']
  | .ge => ['>', '=']
  | .eq => []

/-- The operator tag as produced by the regex match (the absent operator
is reported as the tag of exact match). -/
def opTag : TimeOp → String
  | .lt => "<"
  | .le => "<="
  | .gt => ">"
  | .ge => ">="
  | .eq => "="

/-- The comparison each operator denotes, on minutes since midnight. -/
def opHolds : TimeOp → Nat → Nat → Bool
  | .lt, a, b => decide (a < b)
  | .le, a, b => decide (a ≤ b)
  | .gt, a, b => decide (a > b)
  | .ge, a, b => decide (a ≥ b)
  | .eq, a, b => decide (a = b)

/-- `HH:MM` (or `H:MM`) with the given hour and minute. -/
def renderClock (hh mm : Nat) : List Char :=
  (if hh < 10 then [Nat.digitChar hh] else [Nat.digitChar (hh / 10), Nat.digitChar (hh % 10)]) ++
    ':' :: [Nat.digitChar (mm / 10), Nat.digitChar (mm % 10)]

/-- A whole time-of-day term value: optional operator then `HH:MM`. -/
def timeValue (op : TimeOp) (hh mm : Nat) : String :=
  String.mk (opChars op ++ renderClock hh mm)

/-!
## Round-trip well-formedness (claim C3)

The rendering of `Term.__repr__` quotes a value exactly when it contains
a space and never escapes anything, so rendered values survive re-parsing
only under the conditions below, extracted from the grammar:

* a value is non-empty (an empty value renders to nothing and re-parsing
  raises `Expected value`);
* a value containing a space is rendered quoted, so it must contain no
  double quote and no backslash;
* a value without a space is rendered bare, so it must not begin with a
  double quote, and must contain no parenthesis and no whitespace
  recognized either by the parser (codes 9, 10, 13) or by the outer
  `str.strip()` (any character `str.isspace()` accepts, Unicode
  whitespace included, since a trailing one would be stripped before
  re-parsing).

Property names produced by a successful parse always re-parse to
themselves: they are non-empty, start with a letter, continue with
letters, digits or hyphens, and are already lower-case.
-/

/-- Conditions under which a term value re-parses from its rendering. -/
def valueOkB (v : String) : Bool :=
  !v.data.isEmpty &&
    (if v.data.any (fun c => c.toNat == 32) then
      v.data.all (fun c => !(c.toNat == 34) && !(c.toNat == 92))
    else
      (match v.data with
       | c :: _ => !(c.toNat == 34)
       | [] => true) &&
        v.data.all (fun c => !isStopC c && !isPyWs c))

/-- Shape of the property names a successful parse produces: non-empty,
a letter then letters, digits or hyphens, already lower-case. -/
def propOkB (p : String) : Bool :=
  match p.data with
  | [] => false
  | c :: cs => isPropStartC c && cs.all isPropC && (p.data.map Char.toLower == p.data)

mutual

/-- All property names in an item are well-shaped. -/
def propsOkI : QItem → Bool
  | .term p _ => propOkB p
  | .orGroup ts => propsOkL ts

def propsOkL : List QItem → Bool
  | [] => true
  | t :: ts => propsOkI t && propsOkL ts

end

mutual

/-- All term values in an item satisfy `valueOkB`. -/
def valuesOkI : QItem → Bool
  | .term _ v => valueOkB v
  | .orGroup ts => valuesOkL ts

def valuesOkL : List QItem → Bool
  | [] => true
  | t :: ts => valuesOkI t && valuesOkL ts

end

mutual

/-- Size measure used for induction over the nested AST. -/
def qsize : QItem → Nat
  | .term _ _ => 1
  | .orGroup ts => 1 + lsize ts

def lsize : List QItem → Nat
  | [] => 0
  | t :: ts => qsize t + lsize ts

end

/-!
## General lemmas
-/

theorem data_mk (l : List Char) : (String.mk l).data = l := rfl

/-- Two parsing-loop steps that never make progress: at a stray closing
parenthesis and at a digit, `_parse_term` matches no property name and
returns `None` without advancing, so `parse` loops forever. -/
theorem parseLoop_rparen_none (fuel : Nat) : ∀ acc, parseLoop fuel [')'] acc = none := by
  induction fuel with
  | zero => intro acc; rfl
  | succ n ih => intro acc; exact ih acc

theorem parseLoop_digit_none (fuel : Nat) : ∀ acc, parseLoop fuel ['1'] acc = none := by
  induction fuel with
  | zero => intro acc; rfl
  | succ n ih => intro acc; exact ih acc

theorem evalAny_iff (ev : Event) (ts : List QItem) :
    evalAny ev ts = true ↔ ∃ t ∈ ts, evalItem ev t = true := by
  induction ts with
  | nil => simp [evalAny]
  | cons t ts ih => simp [evalAny, Bool.or_eq_true, ih]

/-!
## Claims
-/

/-- Claim C1: the claim states that `parse` terminates on every input,
returning an `AndGroup` or raising `ParseError`.  The code does not: on
the input `")"` a term is expected, `_parse_term` reads no property name
and returns `None` without advancing the position, and the `parse` loop
repeats forever.  This theorem shows the embedded loop exhausts every
fuel on that input, that is, the Python loop never terminates, against
the documented contract that a `ParseError` is raised on invalid
syntax. -/
theorem parse_not_total_on_rparen : ∀ fuel : Nat, parseQueryFuel fuel ")" = none := by
  intro fuel
  show (match parseLoop fuel [')'] [] with
    | none => (none : Option (Except ParseErr AndGroup))
    | some (Except.error e) => some (Except.error e)
    | some (Except.ok items) => some (Except.ok ⟨items⟩)) = none
  rw [parseLoop_rparen_none fuel []]

/-- Claim C2: the claim states that `ParseError` is raised (among other
cases) whenever a term is expected but no property name can be read, for
example on an input starting with a digit.  The code instead loops
forever there: on `"1"` the parser makes no progress and exhausts every
fuel, so no `ParseError` is ever raised. -/
theorem parse_no_error_on_digit : ∀ fuel : Nat, parseQueryFuel fuel "1" = none := by
  intro fuel
  show (match parseLoop fuel ['1'] [] with
    | none => (none : Option (Except ParseErr AndGroup))
    | some (Except.error e) => some (Except.error e)
    | some (Except.ok items) => some (Except.ok ⟨items⟩)) = none
  rw [parseLoop_digit_none fuel []]

/-- Claim C4: parsing an empty or whitespace-only string succeeds with an
`AndGroup` holding no items, and evaluating that empty `AndGroup` is
`false` on every event. -/
theorem parse_whitespace_empty (q : String) (h : q.data.all isPyWs = true) :
    parseQuery q = some (.ok ⟨[]⟩) ∧ ∀ ev : Event, evaluate ev ⟨[]⟩ = false := by
  constructor
  · have h1 : q.data.dropWhile isPyWs = [] := by
      rw [List.dropWhile_eq_nil_iff]
      intro x hx
      exact List.all_eq_true.mp h x hx
    have hs : pyStrip q.data = [] := by simp [pyStrip, h1]
    show parseQueryFuel _ q = _
    simp [parseQueryFuel, hs]
  · intro ev; rfl

theorem parse_whitespace_empty_witness :
    (" \t\n".data.all isPyWs = true) ∧
      (parseQuery " \t\n" = some (.ok ⟨[]⟩) ∧ ∀ ev : Event, evaluate ev ⟨[]⟩ = false) :=
  ⟨by decide, parse_whitespace_empty " \t\n" (by decide)⟩

/-- Claim C5: on a non-empty `AndGroup`, `evaluate` is `true` exactly when
every item matches, and an `OrGroup` matches exactly when at least one of
its members does. -/
theorem evaluate_connectives (ev : Event) (a : AndGroup) (h : a.items ≠ []) :
    (evaluate ev a = true ↔ ∀ i ∈ a.items, evalItem ev i = true) ∧
    (∀ ts : List QItem, evalItem ev (.orGroup ts) = true ↔ ∃ t ∈ ts, evalItem ev t = true) := by
  constructor
  · obtain ⟨items⟩ := a
    cases items with
    | nil => simp at h
    | cons x xs => simp [evaluate, List.all_eq_true]
  · intro ts
    simp [evalItem, evalAny_iff]

theorem evaluate_connectives_witness :
    ((⟨[.term "title" "x"]⟩ : AndGroup).items ≠ []) ∧
      ((evaluate emptyEvent ⟨[.term "title" "x"]⟩ = true ↔
        ∀ i ∈ (⟨[.term "title" "x"]⟩ : AndGroup).items, evalItem emptyEvent i = true) ∧
       (∀ ts : List QItem,
        evalItem emptyEvent (.orGroup ts) = true ↔ ∃ t ∈ ts, evalItem emptyEvent t = true)) :=
  ⟨fun h => List.noConfusion h,
    evaluate_connectives emptyEvent ⟨[.term "title" "x"]⟩ (fun h => List.noConfusion h)⟩

/-- Claim C6 counterexample: the claim states that a term on a property
whose event field is absent always evaluates to `false`, explicitly
including transparency.  On the event with no fields at all, whose
`transparency` key is absent, the term `transparency:busy` evaluates to
`true`, because the evaluator substitutes the default `opaque` for the
missing field. -/
theorem missing_transparency_matches :
    evaluateQuery "transparency:busy" emptyEvent = some (.ok true) ∧
      emptyEvent.transparency = none :=
  ⟨rfl, rfl⟩

/-- Claim C6 (amended): against the event with every field absent, a term
never raises, and evaluates to `false` for every property except those
the evaluator defaults: a term on any of the ten non-defaulting
properties with a non-empty normalized value is `false`; transparency
and visibility terms behave as if the missing field were `opaque` and
`default` respectively, and a `recurring` term as if the missing flag
were `false`. -/
theorem missing_fields_no_match :
    (∀ prop v, prop ∈ ["title", "description", "attendees", "domain", "email", "response",
        "day-of-week", "time-of-day", "color", "recurrence-id"] →
      normChars (lowerStr v).data ≠ [] → evalTerm emptyEvent prop v = false) ∧
    (∀ v, evalTerm emptyEvent "transparency" v =
      evalTerm { transparency := some "opaque" } "transparency" v) ∧
    (∀ v, evalTerm emptyEvent "visibility" v =
      evalTerm { visibility := some "default" } "visibility" v) ∧
    (∀ v, evalTerm emptyEvent "recurring" v =
      matchBoolean (String.mk (normChars (lowerStr v).data)) false) := by
  refine ⟨?_, fun v => rfl, fun v => rfl, fun v => rfl⟩
  intro prop v hp hv
  obtain ⟨c, cs, hc⟩ := List.exists_cons_of_ne_nil hv
  fin_cases hp
  · have e1 : evalTerm emptyEvent "title" v = hasSub [] (normChars (lowerStr v).data) := rfl
    rw [e1, hc]; rfl
  · have e1 : evalTerm emptyEvent "description" v =
      hasSub [] (normChars (lowerStr v).data) := rfl
    rw [e1, hc]; rfl
  · rfl
  · rfl
  · rfl
  · have e1 : evalTerm emptyEvent "response" v =
        (if String.mk (normChars (lowerStr v).data) == "needsaction" ||
            String.mk (normChars (lowerStr v).data) == "needs-action" ||
            String.mk (normChars (lowerStr v).data) == "needs_action" ||
            String.mk (normChars (lowerStr v).data) == "pending"
         then ("" : String) == "needsaction"
         else ("" : String) == String.mk (normChars (lowerStr v).data)) := rfl
    rw [e1, hc]
    split
    · decide
    · simp only [beq_eq_false_iff_ne, ne_eq]
      exact fun h => List.noConfusion (congrArg String.data h)
  · rfl
  · rfl
  · have e1 : evalTerm emptyEvent "color" v =
        (("" : String) == String.mk (normChars (lowerStr v).data)) := rfl
    rw [e1, hc]
    simp only [beq_eq_false_iff_ne, ne_eq]
    exact fun h => List.noConfusion (congrArg String.data h)
  · have e1 : evalTerm emptyEvent "recurrence-id" v =
        (("" : String) == String.mk (normChars (lowerStr v).data)) := rfl
    rw [e1, hc]
    simp only [beq_eq_false_iff_ne, ne_eq]
    exact fun h => List.noConfusion (congrArg String.data h)

theorem missing_fields_no_match_witness :
    ("title" ∈ ["title", "description", "attendees", "domain", "email", "response",
        "day-of-week", "time-of-day", "color", "recurrence-id"]) ∧
      normChars (lowerStr "x").data ≠ [] ∧
      evalTerm emptyEvent "title" "x" = false :=
  ⟨by decide, by decide, missing_fields_no_match.1 "title" "x" (by decide) (by decide)⟩

/-- Claim C7 counterexample: the claim states that all three example
inputs of the spec parse successfully; the third,
`response:declined OR transparency:free`, does not: a top-level `OR` is
read as a property name `or`, and the parser raises `ParseError`
expecting a colon after it. -/
theorem top_level_or_fails :
    parseQuery "response:declined OR transparency:free" =
      some (.error (.expectedColon "or")) := rfl

/-- Claim C7 (amended): of the spec example inputs, the first two parse
successfully into the expected ASTs, while the third, which places `OR`
at top level outside any parenthesized group, raises a `ParseError`
(the grammar only recognizes `OR` inside a group). -/
theorem spec_examples_parse :
    parseQuery "domain:acme.com title:\"weekly sync\"" =
      some (.ok ⟨[.term "domain" "acme.com", .term "title" "weekly sync"]⟩) ∧
    parseQuery "(domain:a.com OR domain:b.com)" =
      some (.ok ⟨[.orGroup [.term "domain" "a.com", .term "domain" "b.com"]]⟩) ∧
    parseQuery "response:declined OR transparency:free" =
      some (.error (.expectedColon "or")) :=
  ⟨rfl, rfl, rfl⟩

/-- Claim C9: parsing a term with an unknown property name succeeds, and a
term whose property is outside the set the evaluator recognizes
evaluates to `false` on every event and value. -/
theorem unknown_property_never_matches (prop : String)
    (h : prop ∉ ["title", "description", "attendees", "domain", "email", "response",
      "recurring", "is-all-day", "has-attendees", "transparency", "visibility",
      "day-of-week", "time-of-day", "color", "recurrence-id"]) :
    parseQuery "bogus:x" = some (.ok ⟨[.term "bogus" "x"]⟩) ∧
    ∀ (ev : Event) (v : String), evalTerm ev prop v = false := by
  refine ⟨rfl, fun ev v => ?_⟩
  simp only [List.mem_cons, not_or] at h
  obtain ⟨h1, h2, h3, h4, h5, h6, h7, h8, h9, h10, h11, h12, h13, h14, h15, -⟩ := h
  simp [evalTerm, h1, h2, h3, h4, h5, h6, h7, h8, h9, h10, h11, h12, h13, h14, h15]

theorem unknown_property_never_matches_witness :
    ("bogus" ∉ ["title", "description", "attendees", "domain", "email", "response",
      "recurring", "is-all-day", "has-attendees", "transparency", "visibility",
      "day-of-week", "time-of-day", "color", "recurrence-id"]) ∧
      (parseQuery "bogus:x" = some (.ok ⟨[.term "bogus" "x"]⟩) ∧
        ∀ (ev : Event) (v : String), evalTerm ev "bogus" v = false) :=
  ⟨by decide, unknown_property_never_matches "bogus" (by decide)⟩

/-!
### Time-of-day lemmas (claim C8)
-/

theorem digitChar_toNat (d : Nat) (h : d ≤ 9) : (Nat.digitChar d).toNat = 48 + d := by
  interval_cases d <;> rfl

theorem map_id_of_mem {l : List Char} {f : Char → Char} (h : ∀ c ∈ l, f c = c) :
    l.map f = l := by
  induction l with
  | nil => rfl
  | cons c cs ih => simp [h c (by simp), ih (fun x hx => h x (by simp [hx]))]

theorem toLower_fix (c : Char) (h : c.toNat < 65) : c.toLower = c := by
  simp only [Char.toLower]
  rw [if_neg (by omega)]

theorem digitVal_digitChar (x : Nat) (hx : x ≤ 9) : digitVal (Nat.digitChar x) = x := by
  simp [digitVal, digitChar_toNat x hx]

theorem isDigitC_digitChar (x : Nat) (hx : x ≤ 9) : isDigitC (Nat.digitChar x) = true := by
  simp [isDigitC, digitChar_toNat x hx]
  omega

/-- Every character of a rendered time-of-day value has a code point
between 48 and 62, so it is unaffected by lower-casing and by quote
stripping. -/
theorem timeValue_char_range (op : TimeOp) (hh mm : Nat) (h1 : hh ≤ 99) (h2 : mm ≤ 99) :
    ∀ c ∈ (timeValue op hh mm).data, 48 ≤ c.toNat ∧ c.toNat ≤ 62 := by
  intro c hc
  simp only [timeValue, data_mk, List.mem_append] at hc
  rcases hc with hc | hc
  · cases op <;> simp [opChars] at hc <;> rcases hc with rfl | rfl <;> decide
  · simp only [renderClock, List.mem_append] at hc
    rcases hc with hc | hc
    · by_cases hlt : hh < 10
      · rw [if_pos hlt] at hc
        simp at hc
        subst hc
        rw [digitChar_toNat hh (by omega)]
        omega
      · rw [if_neg hlt] at hc
        simp at hc
        rcases hc with rfl | rfl
        · rw [digitChar_toNat (hh / 10) (by omega)]; omega
        · rw [digitChar_toNat (hh % 10) (by omega)]; omega
    · simp at hc
      rcases hc with rfl | rfl | rfl
      · decide
      · rw [digitChar_toNat (mm / 10) (by omega)]; omega
      · rw [digitChar_toNat (mm % 10) (by omega)]; omega

/-- Lower-casing and quote-normalization leave a rendered time-of-day
value unchanged. -/
theorem timeValue_norm (op : TimeOp) (hh mm : Nat) (h1 : hh ≤ 99) (h2 : mm ≤ 99) :
    normChars (lowerStr (timeValue op hh mm)).data = (timeValue op hh mm).data := by
  have hr := timeValue_char_range op hh mm h1 h2
  have hl : (lowerStr (timeValue op hh mm)).data = (timeValue op hh mm).data := by
    simp only [lowerStr, data_mk]
    exact map_id_of_mem (fun c hc => toLower_fix c (by have := hr c hc; omega))
  rw [hl, normChars, List.filter_eq_self]
  intro c hc
  have h3 := hr c hc
  simp only [Bool.not_eq_true', Bool.or_eq_false_iff, beq_eq_false_iff_ne, ne_eq]
  omega

theorem matchClock_render (hh mm : Nat) (h1 : hh ≤ 99) (h2 : mm ≤ 99) :
    matchClock (renderClock hh mm) = some (hh * 60 + mm) := by
  have cn : (':' : Char).toNat = 58 := rfl
  have dcol : isDigitC ':' = false := by decide
  by_cases hlt : hh < 10
  · have e : renderClock hh mm =
        Nat.digitChar hh :: ':' :: Nat.digitChar (mm / 10) :: Nat.digitChar (mm % 10) :: [] := by
      simp [renderClock, if_pos hlt]
    rw [e]
    simp [matchClock, isDigitC_digitChar hh (by omega), dcol, cn,
      isDigitC_digitChar (mm / 10) (by omega), isDigitC_digitChar (mm % 10) (by omega),
      digitVal_digitChar hh (by omega), digitVal_digitChar (mm / 10) (by omega),
      digitVal_digitChar (mm % 10) (by omega)]
    omega
  · have e : renderClock hh mm =
        Nat.digitChar (hh / 10) :: Nat.digitChar (hh % 10) :: ':' ::
          Nat.digitChar (mm / 10) :: Nat.digitChar (mm % 10) :: [] := by
      simp [renderClock, if_neg hlt]
    rw [e]
    simp [matchClock, isDigitC_digitChar (hh / 10) (by omega), cn,
      isDigitC_digitChar (hh % 10) (by omega),
      isDigitC_digitChar (mm / 10) (by omega), isDigitC_digitChar (mm % 10) (by omega),
      digitVal_digitChar (hh / 10) (by omega), digitVal_digitChar (hh % 10) (by omega),
      digitVal_digitChar (mm / 10) (by omega), digitVal_digitChar (mm % 10) (by omega)]
    omega

theorem splitTimeOp_render (op : TimeOp) (hh mm : Nat) (h1 : hh ≤ 99) :
    splitTimeOp (opChars op ++ renderClock hh mm) = (opTag op, renderClock hh mm) := by
  have c6x : ∀ x ≤ 9, ((Nat.digitChar x).toNat == 60) = false ∧
      ((Nat.digitChar x).toNat == 61) = false ∧ ((Nat.digitChar x).toNat == 62) = false := by
    intro x hx
    refine ⟨?_, ?_, ?_⟩ <;> exact beq_eq_false_iff_ne.mpr (by rw [digitChar_toNat x hx]; omega)
  by_cases hcase : hh < 10
  · have e : renderClock hh mm =
        Nat.digitChar hh :: Char.ofNat 58 :: Nat.digitChar (mm / 10) ::
          Nat.digitChar (mm % 10) :: [] := by
      simp [renderClock, if_pos hcase]
    obtain ⟨d60, d61, d62⟩ := c6x hh (by omega)
    rw [e]
    cases op <;> simp [splitTimeOp, opChars, opTag, d60, d61, d62]
  · have e : renderClock hh mm =
        Nat.digitChar (hh / 10) :: Nat.digitChar (hh % 10) :: Char.ofNat 58 ::
          Nat.digitChar (mm / 10) :: Nat.digitChar (mm % 10) :: [] := by
      simp [renderClock, if_neg hcase]
    obtain ⟨d60, d61, d62⟩ := c6x (hh / 10) (by omega)
    obtain ⟨e60, e61, e62⟩ := c6x (hh % 10) (by omega)
    rw [e]
    cases op <;> simp [splitTimeOp, opChars, opTag, d60, d61, d62, e60, e61, e62]

theorem matchTimeValue_render (op : TimeOp) (hh mm : Nat) (h1 : hh ≤ 99) (h2 : mm ≤ 99) :
    matchTimeValue (opChars op ++ renderClock hh mm) = some (opTag op, hh * 60 + mm) := by
  unfold matchTimeValue
  rw [splitTimeOp_render op hh mm h1]
  simp [matchClock_render hh mm h1 h2]

/-- Claim C8: a time-of-day value is an optional operator `<`, `<=`, `>`
or `>=` followed by `HH:MM`, with exact minute equality implied when no
operator is present; the term matches exactly when the event's start
time in minutes since midnight stands in the given relation to the
target, as in the spec's three examples for an event starting at
14:30. -/
theorem timeofday_semantics (ev : Event) (st : String) (dt : DT) (op : TimeOp) (hh mm : Nat)
    (hst : ev.start_time = some st) (hne : st ≠ "")
    (hdt : fromisoDT (replaceZ st.data) = some dt) (hh99 : hh ≤ 99) (hmm99 : mm ≤ 99) :
    (evalTerm ev "time-of-day" (timeValue op hh mm) =
      opHolds op (dt.hour * 60 + dt.minute) (hh * 60 + mm)) ∧
    evaluateQuery "time-of-day:>14:00" eventAt1430 = some (.ok true) ∧
    evaluateQuery "time-of-day:<14:00" eventAt1430 = some (.ok false) ∧
    evaluateQuery "time-of-day:14:30" eventAt1430 = some (.ok true) := by
  refine ⟨?_, rfl, rfl, rfl⟩
  have e1 : evalTerm ev "time-of-day" (timeValue op hh mm) =
      (if ev.start_time.getD "" == "" then false
       else
        match fromisoDT (replaceZ (ev.start_time.getD "").data) with
        | none => false
        | some d =>
          match matchTimeValue
              (String.mk (normChars (lowerStr (timeValue op hh mm)).data)).data with
          | some (o, target) =>
            if o == ">" then decide (d.hour * 60 + d.minute > target)
            else if o == ">=" then decide (d.hour * 60 + d.minute ≥ target)
            else if o == "<" then decide (d.hour * 60 + d.minute < target)
            else if o == "<=" then decide (d.hour * 60 + d.minute ≤ target)
            else decide (d.hour * 60 + d.minute = target)
          | none => false) := rfl
  rw [e1, hst]
  simp only [Option.getD_some]
  have hb : (st == "") = false := beq_eq_false_iff_ne.mpr hne
  simp only [hb, Bool.false_eq_true, if_false, hdt, data_mk]
  rw [timeValue_norm op hh mm hh99 hmm99]
  have e2 : (timeValue op hh mm).data = opChars op ++ renderClock hh mm := rfl
  rw [e2, matchTimeValue_render op hh mm hh99 hmm99]
  cases op <;> simp [opTag, opHolds]

theorem timeofday_semantics_witness :
    eventAt1430.start_time = some "2024-01-15T14:30:00" ∧
    "2024-01-15T14:30:00" ≠ "" ∧
    fromisoDT (replaceZ "2024-01-15T14:30:00".data) = some ⟨2024, 1, 15, 14, 30⟩ ∧
    ((evalTerm eventAt1430 "time-of-day" (timeValue .gt 14 0) =
        opHolds .gt ((⟨2024, 1, 15, 14, 30⟩ : DT).hour * 60 +
          (⟨2024, 1, 15, 14, 30⟩ : DT).minute) (14 * 60 + 0)) ∧
      evaluateQuery "time-of-day:>14:00" eventAt1430 = some (.ok true) ∧
      evaluateQuery "time-of-day:<14:00" eventAt1430 = some (.ok false) ∧
      evaluateQuery "time-of-day:14:30" eventAt1430 = some (.ok true)) :=
  ⟨rfl, by decide, rfl,
    timeofday_semantics eventAt1430 "2024-01-15T14:30:00" ⟨2024, 1, 15, 14, 30⟩ .gt 14 0
      rfl (by decide) rfl (by decide) (by decide)⟩

/-!
### Round-trip lemmas (claim C3)
-/

theorem toNat_ofNat_valid (n : Nat) (h : n < 55296) : (Char.ofNat n).toNat = n := by
  rw [Char.ofNat, dif_pos (Or.inl h)]
  rfl

theorem toLower_eq (c : Char) :
    c.toLower = if 65 ≤ c.toNat ∧ c.toNat ≤ 90 then Char.ofNat (c.toNat + 32) else c := by
  simp [Char.toLower]

theorem toLower_toNat (c : Char) (h : 65 ≤ c.toNat ∧ c.toNat ≤ 90) :
    (c.toLower).toNat = c.toNat + 32 := by
  have hv : c.toNat < 55296 := by
    cases c.valid with
    | inl h2 => omega
    | inr h2 => omega
  rw [toLower_eq, if_pos h, toNat_ofNat_valid _ (by omega)]

theorem toLower_fix2 (c : Char) (h : ¬(65 ≤ c.toNat ∧ c.toNat ≤ 90)) : c.toLower = c := by
  rw [toLower_eq, if_neg h]

theorem toLower_idem (c : Char) : c.toLower.toLower = c.toLower := by
  by_cases h : 65 ≤ c.toNat ∧ c.toNat ≤ 90
  · have h2 := toLower_toNat c h
    rw [toLower_fix2 c.toLower (by omega)]
  · rw [toLower_fix2 c h, toLower_fix2 c h]

theorem isPropStartC_toLower (c : Char) (h : isPropStartC c = true) :
    isPropStartC c.toLower = true := by
  simp only [isPropStartC, Bool.or_eq_true, Bool.and_eq_true, decide_eq_true_eq] at h ⊢
  by_cases h2 : 65 ≤ c.toNat ∧ c.toNat ≤ 90
  · have h3 := toLower_toNat c h2
    omega
  · rw [toLower_fix2 c h2]
    omega

theorem isPropC_toLower (c : Char) (h : isPropC c = true) : isPropC c.toLower = true := by
  simp only [isPropC, isPropStartC, isDigitC, Bool.or_eq_true, Bool.and_eq_true,
    decide_eq_true_eq, beq_iff_eq] at h ⊢
  by_cases h2 : 65 ≤ c.toNat ∧ c.toNat ≤ 90
  · have h3 := toLower_toNat c h2
    omega
  · rw [toLower_fix2 c h2]
    omega

theorem parseTerm_propOk {s : List Char} {p v : String} {s2 : List Char}
    (h : parseTerm s = .ok (some (p, v), s2)) : propOkB p = true := by
  unfold parseTerm at h
  cases hsw : skipWs s with
  | nil => rw [hsw] at h; simp at h
  | cons c cs =>
    rw [hsw] at h
    dsimp only at h
    by_cases hps : isPropStartC c = true
    · rw [if_pos hps] at h
      cases hdw : cs.dropWhile isPropC with
      | nil => rw [hdw] at h; simp at h
      | cons c2 r2 =>
        rw [hdw] at h
        dsimp only at h
        by_cases h58 : (c2.toNat == 58) = true
        · rw [if_pos h58] at h
          cases hpv : parseValue r2 with
          | error e => rw [hpv] at h; simp at h
          | ok vr =>
            obtain ⟨v2, r3⟩ := vr
            rw [hpv] at h
            dsimp only at h
            simp only [Except.ok.injEq, Prod.mk.injEq, Option.some.injEq] at h
            obtain ⟨⟨hp2, hv2⟩, hs3⟩ := h
            subst hp2
            simp only [propOkB, data_mk, List.map_cons, Bool.and_eq_true]
            refine ⟨⟨?_, ?_⟩, ?_⟩
            · exact isPropStartC_toLower c hps
            · rw [List.all_eq_true]
              intro x hx
              obtain ⟨y, hy, rfl⟩ := List.mem_map.mp hx
              exact isPropC_toLower y (List.mem_takeWhile_imp hy)
            · rw [beq_iff_eq]
              show (Char.toLower c :: _).map Char.toLower = _
              simp only [List.map_cons, List.map_map, toLower_idem]
              congr 1
              exact List.map_congr_left (fun a _ => toLower_idem a)
        · rw [if_neg h58] at h; simp at h
    · rw [if_neg hps] at h; simp at h

theorem propsOkL_iff (l : List QItem) : propsOkL l = true ↔ ∀ t ∈ l, propsOkI t = true := by
  induction l with
  | nil => simp [propsOkL]
  | cons t ts ih => simp [propsOkL, Bool.and_eq_true, ih]

theorem groupLoop_props : ∀ (fuel : Nat) (s : List Char) (acc ts : List QItem) (rest : List Char),
    groupLoop fuel s acc = some (.ok (ts, rest)) → (∀ t ∈ acc, propsOkI t = true) →
    ∀ t ∈ ts, propsOkI t = true := by
  intro fuel
  induction fuel with
  | zero => intro s acc ts rest h _; simp [groupLoop] at h
  | succ f ih =>
    intro s acc ts rest h hacc
    cases s with
    | nil => simp [groupLoop] at h
    | cons c r =>
      unfold groupLoop at h
      dsimp only at h
      by_cases h41 : (c.toNat == 41) = true
      · rw [if_pos h41] at h
        simp only [Option.some.injEq, Except.ok.injEq, Prod.mk.injEq] at h
        obtain ⟨hts, hrest⟩ := h
        subst hts
        intro t ht
        exact hacc t (List.mem_reverse.mp ht)
      · rw [if_neg h41] at h
        cases hsw : skipWs (c :: r) with
        | nil => rw [hsw] at h; dsimp only at h; exact ih _ _ _ _ h hacc
        | cons c1 r1 =>
          rw [hsw] at h
          dsimp only at h
          by_cases h40 : (c1.toNat == 40) = true
          · rw [if_pos h40] at h
            cases hn : groupLoop f (skipWs r1) [] with
            | none => rw [hn] at h; simp at h
            | some res =>
              cases res with
              | error e => rw [hn] at h; simp at h
              | ok pr =>
                obtain ⟨ts2, rest2⟩ := pr
                rw [hn] at h
                dsimp only at h
                have hts2 : ∀ t ∈ ts2, propsOkI t = true := by
                  refine ih _ _ _ _ hn ?_
                  intro t ht
                  simp at ht
                refine ih _ _ _ _ h ?_
                intro t ht
                rcases List.mem_cons.mp ht with rfl | ht2
                · show propsOkI (.orGroup ts2) = true
                  simp only [propsOkI]
                  exact (propsOkL_iff ts2).mpr hts2
                · exact hacc t ht2
          · rw [if_neg h40] at h
            by_cases hor : isOrKw (c1 :: r1) = true
            · rw [if_pos hor] at h
              exact ih _ _ _ _ h hacc
            · rw [if_neg hor] at h
              cases hpt : parseTerm (c1 :: r1) with
              | error e => rw [hpt] at h; simp at h
              | ok pr =>
                obtain ⟨opt, s2⟩ := pr
                cases opt with
                | none => rw [hpt] at h; dsimp only at h; exact ih _ _ _ _ h hacc
                | some pv =>
                  obtain ⟨p, v⟩ := pv
                  rw [hpt] at h
                  dsimp only at h
                  refine ih _ _ _ _ h ?_
                  intro t ht
                  rcases List.mem_cons.mp ht with rfl | ht2
                  · exact parseTerm_propOk hpt
                  · exact hacc t ht2

theorem parseLoop_props : ∀ (fuel : Nat) (s : List Char) (acc items : List QItem),
    parseLoop fuel s acc = some (.ok items) → (∀ t ∈ acc, propsOkI t = true) →
    ∀ t ∈ items, propsOkI t = true := by
  intro fuel
  induction fuel with
  | zero => intro s acc items h _; simp [parseLoop] at h
  | succ f ih =>
    intro s acc items h hacc
    cases s with
    | nil =>
      simp only [parseLoop, Option.some.injEq, Except.ok.injEq] at h
      subst h
      intro t ht
      exact hacc t (List.mem_reverse.mp ht)
    | cons c r =>
      unfold parseLoop at h
      dsimp only at h
      cases hsw : skipWs (c :: r) with
      | nil =>
        rw [hsw] at h
        dsimp only at h
        simp only [Option.some.injEq, Except.ok.injEq] at h
        subst h
        intro t ht
        exact hacc t (List.mem_reverse.mp ht)
      | cons c1 r1 =>
        rw [hsw] at h
        dsimp only at h
        by_cases h40 : (c1.toNat == 40) = true
        · rw [if_pos h40] at h
          cases hn : groupLoop f (skipWs r1) [] with
          | none => rw [hn] at h; simp at h
          | some res =>
            cases res with
            | error e => rw [hn] at h; simp at h
            | ok pr =>
              obtain ⟨ts2, rest2⟩ := pr
              rw [hn] at h
              dsimp only at h
              have hts2 : ∀ t ∈ ts2, propsOkI t = true := by
                refine groupLoop_props _ _ _ _ _ hn ?_
                intro t ht
                simp at ht
              refine ih _ _ _ h ?_
              intro t ht
              rcases List.mem_cons.mp ht with rfl | ht2
              · show propsOkI (.orGroup ts2) = true
                simp only [propsOkI]
                exact (propsOkL_iff ts2).mpr hts2
              · exact hacc t ht2
        · rw [if_neg h40] at h
          cases hpt : parseTerm (c1 :: r1) with
          | error e => rw [hpt] at h; simp at h
          | ok pr =>
            obtain ⟨opt, s2⟩ := pr
            cases opt with
            | none => rw [hpt] at h; dsimp only at h; exact ih _ _ _ h hacc
            | some pv =>
              obtain ⟨p, v⟩ := pv
              rw [hpt] at h
              dsimp only at h
              refine ih _ _ _ h ?_
              intro t ht
              rcases List.mem_cons.mp ht with rfl | ht2
              · exact parseTerm_propOk hpt
              · exact hacc t ht2

theorem propC_range (c : Char) (h : isPropC c = true) :
    (97 ≤ c.toNat ∧ c.toNat ≤ 122) ∨ (65 ≤ c.toNat ∧ c.toNat ≤ 90) ∨
    (48 ≤ c.toNat ∧ c.toNat ≤ 57) ∨ c.toNat = 45 := by
  simp only [isPropC, isPropStartC, isDigitC, Bool.or_eq_true, Bool.and_eq_true,
    decide_eq_true_eq, beq_iff_eq] at h
  omega

theorem propStart_range (c : Char) (h : isPropStartC c = true) :
    (97 ≤ c.toNat ∧ c.toNat ≤ 122) ∨ (65 ≤ c.toNat ∧ c.toNat ≤ 90) := by
  simp only [isPropStartC, Bool.or_eq_true, Bool.and_eq_true, decide_eq_true_eq] at h
  omega

theorem propC_facts (c : Char) (h : isPropC c = true) :
    isWsC c = false ∧ isPyWs c = false ∧ isStopC c = false ∧ (c.toNat == 41) = false ∧
    (c.toNat == 40) = false ∧ (c.toNat == 58) = false ∧ (c.toNat == 34) = false := by
  have hr := propC_range c h
  have hw : isWsC c = false := by
    simp only [isWsC, Bool.or_eq_false_iff, beq_eq_false_iff_ne, ne_eq]
    omega
  have hp : isPyWs c = false := by
    simp only [isPyWs, hw, Bool.false_or, Bool.or_eq_false_iff, Bool.and_eq_false_iff,
      beq_eq_false_iff_ne, ne_eq, decide_eq_false_iff_not, not_le]
    omega
  have hs : isStopC c = false := by
    simp only [isStopC, hw, Bool.false_or, Bool.or_eq_false_iff, beq_eq_false_iff_ne, ne_eq]
    omega
  refine ⟨hw, hp, hs, ?_, ?_, ?_, ?_⟩ <;> exact beq_eq_false_iff_ne.mpr (by omega)

theorem propStart_propC (c : Char) (h : isPropStartC c = true) : isPropC c = true := by
  simp [isPropC, h]

theorem skipWs_cons_neg {c : Char} (s : List Char) (h : isWsC c = false) :
    skipWs (c :: s) = c :: s := by
  simp [skipWs, h]

theorem skipWs_cons_pos {c : Char} (s : List Char) (h : isWsC c = true) :
    skipWs (c :: s) = skipWs s := by
  simp [skipWs, h]

theorem parseQuoted_clean : ∀ (v : List Char) (acc rest : List Char),
    (∀ c ∈ v, (c.toNat == 34) = false ∧ (c.toNat == 92) = false) →
    parseQuoted (v ++ '"' :: rest) acc = .ok (String.mk (acc.reverse ++ v), rest) := by
  intro v
  induction v with
  | nil =>
    intro acc rest _
    show parseQuoted (Char.ofNat 34 :: rest) acc = _
    unfold parseQuoted
    rw [if_pos (show ((Char.ofNat 34).toNat == 34) = true from rfl)]
    simp
  | cons c v ih =>
    intro acc rest hall
    obtain ⟨h34, h92⟩ := hall c (by simp)
    show parseQuoted (c :: (v ++ '"' :: rest)) acc = _
    unfold parseQuoted
    rw [if_neg (by simp [h34]), if_neg (by simp [h92])]
    rw [ih (c :: acc) rest (fun x hx => hall x (by simp [hx]))]
    simp

theorem parseUnquoted_clean (v rest : List Char) (hv : v ≠ [])
    (hall : ∀ c ∈ v, isStopC c = false)
    (hrest : rest = [] ∨ ∃ c r2, rest = c :: r2 ∧ isStopC c = true) :
    parseUnquoted (v ++ rest) = .ok (String.mk v, rest) := by
  have htw : (v ++ rest).takeWhile (fun c => !isStopC c) = v := by
    rw [List.takeWhile_append_of_pos (by intro a ha; simp [hall a ha])]
    rcases hrest with rfl | ⟨c, r2, rfl, hc⟩
    · simp
    · simp [List.takeWhile_cons, hc]
  have hdw : (v ++ rest).dropWhile (fun c => !isStopC c) = rest := by
    rw [List.dropWhile_append_of_pos (by intro a ha; simp [hall a ha])]
    rcases hrest with rfl | ⟨c, r2, rfl, hc⟩
    · simp
    · simp [List.dropWhile_cons, hc]
  unfold parseUnquoted
  rw [htw, hdw, if_neg (by simp [hv])]

theorem string_eta (v : String) : String.mk v.data = v := rfl

theorem parseValue_render (v : String) (rest : List Char) (hok : valueOkB v = true)
    (hrest : rest = [] ∨ ∃ c r2, rest = c :: r2 ∧ isStopC c = true) :
    parseValue ((if v.data.any (fun c => c.toNat == 32) then '"' :: (v.data ++ ['"'])
      else v.data) ++ rest) = .ok (v, rest) := by
  simp only [valueOkB, Bool.and_eq_true, Bool.not_eq_true', List.isEmpty_eq_false] at hok
  obtain ⟨hne, hok2⟩ := hok
  by_cases hsp : v.data.any (fun c => c.toNat == 32) = true
  · rw [if_pos hsp]
    rw [if_pos hsp] at hok2
    have hclean : ∀ c ∈ v.data, (c.toNat == 34) = false ∧ (c.toNat == 92) = false := by
      intro c hc
      have := List.all_eq_true.mp hok2 c hc
      simp only [Bool.and_eq_true, Bool.not_eq_true'] at this
      exact this
    show parseValue (Char.ofNat 34 :: ((v.data ++ [Char.ofNat 34]) ++ rest)) = _
    unfold parseValue
    dsimp only
    rw [if_pos (show ((Char.ofNat 34).toNat == 34) = true from rfl)]
    have hassoc : (v.data ++ [Char.ofNat 34]) ++ rest = v.data ++ Char.ofNat 34 :: rest := by
      simp
    rw [hassoc, parseQuoted_clean v.data [] rest hclean]
    simp [string_eta]
  · rw [if_neg hsp]
    rw [if_neg hsp] at hok2
    obtain ⟨c, cs, hc⟩ := List.exists_cons_of_ne_nil hne
    have hok3 := hok2
    simp only [Bool.and_eq_true] at hok3
    obtain ⟨hhead, hall⟩ := hok3
    have hstop : ∀ x ∈ v.data, isStopC x = false := by
      intro x hx
      have := List.all_eq_true.mp hall x hx
      simp only [Bool.and_eq_true, Bool.not_eq_true'] at this
      exact this.1
    have h34 : (c.toNat == 34) = false := by
      rw [hc] at hhead
      simpa using hhead
    rw [hc]
    show parseValue ((c :: cs) ++ rest) = _
    unfold parseValue
    rw [List.cons_append]
    dsimp only
    rw [if_neg (by simp [h34])]
    rw [show c :: (cs ++ rest) = (c :: cs) ++ rest from rfl]
    rw [parseUnquoted_clean (c :: cs) rest (by simp) (by rw [hc] at hstop; exact hstop) hrest]
    rw [← hc, string_eta]

theorem parseTerm_render (p v : String) (rest : List Char)
    (hp : propOkB p = true) (hv : valueOkB v = true)
    (hrest : rest = [] ∨ ∃ c r2, rest = c :: r2 ∧ isStopC c = true) :
    parseTerm (renderTerm p v ++ rest) = .ok (some (p, v), rest) := by
  simp only [propOkB] at hp
  cases hpd : p.data with
  | nil => rw [hpd] at hp; simp at hp
  | cons c cs =>
    rw [hpd] at hp
    simp only [Bool.and_eq_true, beq_iff_eq] at hp
    obtain ⟨⟨hps, hall⟩, hfix⟩ := hp
    have hcprop : isPropC c = true := propStart_propC c hps
    have hcf := propC_facts c hcprop
    have e1 : renderTerm p v ++ rest =
        c :: (cs ++ ':' :: ((if v.data.any (fun x => x.toNat == 32) then
          '"' :: (v.data ++ ['"']) else v.data) ++ rest)) := by
      simp [renderTerm, hpd]
    rw [e1]
    unfold parseTerm
    rw [skipWs_cons_neg _ hcf.1]
    dsimp only
    rw [if_pos hps]
    have htw : (cs ++ ':' :: ((if v.data.any (fun x => x.toNat == 32) then
        '"' :: (v.data ++ ['"']) else v.data) ++ rest)).takeWhile isPropC = cs := by
      rw [List.takeWhile_append_of_pos (by intro a ha; exact List.all_eq_true.mp hall a ha)]
      simp [List.takeWhile_cons, show isPropC (Char.ofNat 58) = false from rfl]
    have hdw : (cs ++ ':' :: ((if v.data.any (fun x => x.toNat == 32) then
        '"' :: (v.data ++ ['"']) else v.data) ++ rest)).dropWhile isPropC =
        ':' :: ((if v.data.any (fun x => x.toNat == 32) then
          '"' :: (v.data ++ ['"']) else v.data) ++ rest) := by
      rw [List.dropWhile_append_of_pos (by intro a ha; exact List.all_eq_true.mp hall a ha)]
      simp [List.dropWhile_cons, show isPropC (Char.ofNat 58) = false from rfl]
    rw [htw, hdw]
    dsimp only
    rw [if_pos (show ((Char.ofNat 58).toNat == 58) = true from rfl)]
    rw [parseValue_render v rest hv hrest]
    have hprop : String.mk ((c :: cs).map Char.toLower) = p := by
      rw [← hpd] at hfix ⊢
      rw [hfix, string_eta]
    rw [hprop]

theorem renderItem_head (t : QItem) (hp : propsOkI t = true) :
    ∃ c tail, renderItem t = c :: tail ∧ isWsC c = false ∧ isPyWs c = false ∧
      (c.toNat == 41) = false := by
  cases t with
  | term p v =>
    have hp2 : propOkB p = true := hp
    simp only [propOkB] at hp2
    cases hpd : p.data with
    | nil => rw [hpd] at hp2; simp at hp2
    | cons c cs =>
      rw [hpd] at hp2
      simp only [Bool.and_eq_true] at hp2
      have hcf := propC_facts c (propStart_propC c hp2.1.1)
      refine ⟨c, cs ++ ':' :: (if v.data.any (fun x => x.toNat == 32) then
        '"' :: (v.data ++ ['"']) else v.data), ?_, hcf.1, hcf.2.1, hcf.2.2.2.1⟩
      simp [renderItem, renderTerm, hpd]
  | orGroup us =>
    refine ⟨'(', renderMembers us ++ [')'], by simp [renderItem], by decide, by decide, by decide⟩

theorem renderMembers_skipWs (us : List QItem) (h : ∀ t ∈ us, propsOkI t = true)
    (X : List Char) : skipWs (renderMembers us ++ ')' :: X) = renderMembers us ++ ')' :: X := by
  cases us with
  | nil => simp [renderMembers]; rw [skipWs_cons_neg _ (by decide)]
  | cons t ts =>
    obtain ⟨c, tail, he, hws, -, -⟩ := renderItem_head t (h t (by simp))
    have e1 : renderMembers (t :: ts) ++ ')' :: X = c :: (tail ++
        (match ts with
         | [] => []
         | _ => ' ' :: 'O' :: 'R' :: ' ' :: renderMembers ts) ++ ')' :: X) := by
      cases ts with
      | nil => simp [renderMembers, he]
      | cons t2 ts2 => simp [renderMembers, he]
    rw [e1, skipWs_cons_neg _ hws, ← e1]

theorem isOrKw_sep (Y : List Char) : isOrKw ('O' :: 'R' :: ' ' :: Y) = true := rfl

theorem isOrKw_term (p v : String) (Z : List Char) (hp : propOkB p = true) :
    isOrKw (renderTerm p v ++ Z) = false := by
  simp only [propOkB] at hp
  cases hpd : p.data with
  | nil => rw [hpd] at hp; simp at hp
  | cons c cs =>
    rw [hpd] at hp
    simp only [Bool.and_eq_true] at hp
    have e1 : renderTerm p v ++ Z = c :: (cs ++ ':' :: ((if v.data.any (fun x => x.toNat == 32)
        then '"' :: (v.data ++ ['"']) else v.data) ++ Z)) := by
      simp [renderTerm, hpd]
    rw [e1]
    cases cs with
    | nil =>
      show isOrKw (c :: ':' :: _) = false
      simp [isOrKw]
    | cons c2 cs2 =>
      have hc2 : isPropC c2 = true := by
        have := List.all_eq_true.mp hp.1.2 c2 (by simp)
        exact this
      show isOrKw (c :: c2 :: (cs2 ++ ':' :: _)) = false
      cases cs2 with
      | nil =>
        simp [isOrKw, show isWsC (Char.ofNat 58) = false from by decide]
      | cons c3 cs3 =>
        have hc3 : isPropC c3 = true := by
          have := List.all_eq_true.mp hp.1.2 c3 (by simp)
          exact this
        have hf := propC_facts c3 hc3
        simp [isOrKw, hf.1, hf.2.2.2.1]

theorem valuesOkL_iff (l : List QItem) : valuesOkL l = true ↔ ∀ t ∈ l, valuesOkI t = true := by
  induction l with
  | nil => simp [valuesOkL]
  | cons t ts ih => simp [valuesOkL, Bool.and_eq_true, ih]

theorem qsize_pos (t : QItem) : 1 ≤ qsize t := by
  cases t <;> simp [qsize]

theorem groupLoop_rparen_exit (fuel : Nat) (rest : List Char) (acc : List QItem)
    (h : 1 ≤ fuel) : groupLoop fuel (')' :: rest) acc = some (.ok (acc.reverse, rest)) := by
  obtain ⟨f, rfl⟩ : ∃ f, fuel = f + 1 := ⟨fuel - 1, by omega⟩
  rfl

theorem parseLoop_nil_exit (fuel : Nat) (acc : List QItem) (h : 1 ≤ fuel) :
    parseLoop fuel [] acc = some (.ok acc.reverse) := by
  obtain ⟨f, rfl⟩ : ∃ f, fuel = f + 1 := ⟨fuel - 1, by omega⟩
  rfl

theorem groupLoop_or_tick (fuel : Nat) (Y : List Char) (acc : List QItem) :
    groupLoop (fuel + 1) (' ' :: 'O' :: 'R' :: ' ' :: Y) acc = groupLoop fuel (skipWs Y) acc := by
  conv_lhs => unfold groupLoop
  dsimp only
  rw [if_neg (by decide)]
  rw [show skipWs (' ' :: 'O' :: 'R' :: ' ' :: Y) = 'O' :: 'R' :: ' ' :: Y from by
    rw [skipWs_cons_pos _ (by decide), skipWs_cons_neg _ (by decide)]]
  dsimp only
  rw [if_neg (by decide), if_pos (isOrKw_sep Y)]
  show groupLoop fuel (skipWs (' ' :: Y)) acc = _
  rw [skipWs_cons_pos _ (by decide)]

theorem groupLoop_term_tick (fuel : Nat) (p v : String) (X : List Char) (acc : List QItem)
    (hp : propOkB p = true) (hv : valueOkB v = true)
    (hX : ∃ c r2, X = c :: r2 ∧ isStopC c = true) :
    groupLoop (fuel + 1) (renderTerm p v ++ X) acc = groupLoop fuel X (.term p v :: acc) := by
  have hp2 := hp
  simp only [propOkB] at hp2
  cases hpd : p.data with
  | nil => rw [hpd] at hp2; simp at hp2
  | cons c cs =>
    rw [hpd] at hp2
    simp only [Bool.and_eq_true] at hp2
    have hcf := propC_facts c (propStart_propC c hp2.1.1)
    have e1 : renderTerm p v ++ X = c :: (cs ++ ':' :: ((if v.data.any (fun x => x.toNat == 32)
        then '"' :: (v.data ++ ['"']) else v.data) ++ X)) := by
      simp [renderTerm, hpd]
    rw [e1]
    conv_lhs => unfold groupLoop
    dsimp only
    rw [if_neg (by simp [hcf.2.2.2.1])]
    rw [skipWs_cons_neg _ hcf.1]
    dsimp only
    rw [if_neg (by simp [hcf.2.2.2.2.1])]
    rw [← e1, isOrKw_term p v X hp]
    rw [if_neg (by simp)]
    rw [parseTerm_render p v X hp hv (Or.inr hX)]

theorem parseLoop_term_tick (fuel : Nat) (p v : String) (X : List Char) (acc : List QItem)
    (hp : propOkB p = true) (hv : valueOkB v = true)
    (hX : X = [] ∨ ∃ c r2, X = c :: r2 ∧ isStopC c = true) :
    parseLoop (fuel + 1) (renderTerm p v ++ X) acc = parseLoop fuel X (.term p v :: acc) := by
  have hp2 := hp
  simp only [propOkB] at hp2
  cases hpd : p.data with
  | nil => rw [hpd] at hp2; simp at hp2
  | cons c cs =>
    rw [hpd] at hp2
    simp only [Bool.and_eq_true] at hp2
    have hcf := propC_facts c (propStart_propC c hp2.1.1)
    have e1 : renderTerm p v ++ X = c :: (cs ++ ':' :: ((if v.data.any (fun x => x.toNat == 32)
        then '"' :: (v.data ++ ['"']) else v.data) ++ X)) := by
      simp [renderTerm, hpd]
    rw [e1]
    conv_lhs => unfold parseLoop
    dsimp only
    rw [skipWs_cons_neg _ hcf.1]
    dsimp only
    rw [if_neg (by simp [hcf.2.2.2.2.1])]
    rw [← e1, parseTerm_render p v X hp hv hX]

theorem parseLoop_space (fuel : Nat) (s : List Char) (acc : List QItem) :
    parseLoop fuel (' ' :: s) acc = parseLoop fuel s acc := by
  cases fuel with
  | zero => rfl
  | succ f =>
    cases s with
    | nil => rfl
    | cons c cs =>
      show parseLoop (f + 1) (' ' :: c :: cs) acc = parseLoop (f + 1) (c :: cs) acc
      conv_lhs => unfold parseLoop
      conv_rhs => unfold parseLoop
      dsimp only
      rw [skipWs_cons_pos _ (by decide)]

theorem groupLoop_group_tick (fuel : Nat) (Z X : List Char) (acc : List QItem)
    (hskip : skipWs (Z ++ ')' :: X) = Z ++ ')' :: X) :
    groupLoop (fuel + 1) ('(' :: (Z ++ ')' :: X)) acc =
      (match groupLoop fuel (Z ++ ')' :: X) [] with
       | none => none
       | some (.error e) => some (.error e)
       | some (.ok (ts2, rest2)) => groupLoop fuel rest2 (.orGroup ts2 :: acc)) := by
  conv_lhs => unfold groupLoop
  dsimp only
  rw [if_neg (by decide)]
  rw [skipWs_cons_neg _ (by decide)]
  dsimp only
  rw [if_pos (by decide)]
  rw [hskip]

theorem parseLoop_group_tick (fuel : Nat) (Z X : List Char) (acc : List QItem)
    (hskip : skipWs (Z ++ ')' :: X) = Z ++ ')' :: X) :
    parseLoop (fuel + 1) ('(' :: (Z ++ ')' :: X)) acc =
      (match groupLoop fuel (Z ++ ')' :: X) [] with
       | none => none
       | some (.error e) => some (.error e)
       | some (.ok (ts2, rest2)) => parseLoop fuel rest2 (.orGroup ts2 :: acc)) := by
  conv_lhs => unfold parseLoop
  dsimp only
  rw [skipWs_cons_neg _ (by decide)]
  dsimp only
  rw [if_pos (by decide)]
  rw [hskip]

theorem groupLoop_render : ∀ (n : Nat) (ts : List QItem), lsize ts ≤ n →
    (∀ t ∈ ts, propsOkI t = true ∧ valuesOkI t = true) →
    ∀ (rest : List Char) (acc : List QItem), ∃ m, ∀ fuel, m ≤ fuel →
      groupLoop fuel (renderMembers ts ++ ')' :: rest) acc =
        some (.ok (acc.reverse ++ ts, rest)) := by
  intro n
  induction n with
  | zero =>
    intro ts hsz hok rest acc
    cases ts with
    | nil =>
      refine ⟨1, fun fuel hf => ?_⟩
      show groupLoop fuel (')' :: rest) acc = _
      rw [groupLoop_rparen_exit fuel rest acc hf]
      simp
    | cons t ts' =>
      exfalso
      have := qsize_pos t
      simp [lsize] at hsz
      omega
  | succ n ihn =>
    intro ts hsz hok rest acc
    cases ts with
    | nil =>
      refine ⟨1, fun fuel hf => ?_⟩
      show groupLoop fuel (')' :: rest) acc = _
      rw [groupLoop_rparen_exit fuel rest acc hf]
      simp
    | cons t ts' =>
      have hok_t := hok t (by simp)
      have hok_ts' : ∀ x ∈ ts', propsOkI x = true ∧ valuesOkI x = true :=
        fun x hx => hok x (by simp [hx])
      have hsz' : lsize ts' ≤ n := by
        have := qsize_pos t
        simp [lsize] at hsz
        omega
      cases t with
      | term p v =>
        have hpv : propOkB p = true := hok_t.1
        have hvv : valueOkB v = true := hok_t.2
        cases ts' with
        | nil =>
          refine ⟨2, fun fuel hf => ?_⟩
          obtain ⟨f, rfl⟩ : ∃ f, fuel = f + 1 := ⟨fuel - 1, by omega⟩
          have e1 : renderMembers [QItem.term p v] ++ ')' :: rest =
              renderTerm p v ++ ')' :: rest := by
            simp [renderMembers, renderItem]
          rw [e1, groupLoop_term_tick f p v (')' :: rest) acc hpv hvv
            ⟨')', rest, rfl, by decide⟩]
          rw [groupLoop_rparen_exit f rest _ (by omega)]
          simp
        | cons t2 ts'' =>
          obtain ⟨m3, hm3⟩ := ihn (t2 :: ts'') hsz' hok_ts' rest (QItem.term p v :: acc)
          refine ⟨m3 + 2, fun fuel hf => ?_⟩
          obtain ⟨f, rfl⟩ : ∃ f, fuel = (f + 1) + 1 := ⟨fuel - 2, by omega⟩
          have e1 : renderMembers (QItem.term p v :: t2 :: ts'') ++ ')' :: rest =
              renderTerm p v ++ (' ' :: 'O' :: 'R' :: ' ' ::
                (renderMembers (t2 :: ts'') ++ ')' :: rest)) := by
            simp [renderMembers, renderItem]
          rw [e1, groupLoop_term_tick (f + 1) p v _ acc hpv hvv
            ⟨' ', _, rfl, by decide⟩]
          rw [groupLoop_or_tick f _ _]
          rw [renderMembers_skipWs (t2 :: ts'') (fun x hx => (hok_ts' x hx).1) rest]
          rw [hm3 f (by omega)]
          simp
      | orGroup us =>
        have hus : ∀ x ∈ us, propsOkI x = true ∧ valuesOkI x = true := by
          intro x hx
          have h1 : propsOkL us = true := hok_t.1
          have h2 : valuesOkL us = true := hok_t.2
          exact ⟨(propsOkL_iff us).mp h1 x hx, (valuesOkL_iff us).mp h2 x hx⟩
        have hsz_us : lsize us ≤ n := by
          have : qsize (QItem.orGroup us) = 1 + lsize us := by simp [qsize]
          simp [lsize, this] at hsz
          omega
        have hskip : ∀ X : List Char,
            skipWs (renderMembers us ++ ')' :: X) = renderMembers us ++ ')' :: X :=
          fun X => renderMembers_skipWs us (fun x hx => (hus x hx).1) X
        cases ts' with
        | nil =>
          obtain ⟨m1, hm1⟩ := ihn us hsz_us hus (')' :: rest) []
          refine ⟨m1 + 2, fun fuel hf => ?_⟩
          obtain ⟨f, rfl⟩ : ∃ f, fuel = f + 1 := ⟨fuel - 1, by omega⟩
          have e1 : renderMembers [QItem.orGroup us] ++ ')' :: rest =
              '(' :: (renderMembers us ++ ')' :: (')' :: rest)) := by
            simp [renderMembers, renderItem]
          rw [e1, groupLoop_group_tick f _ _ acc (hskip _)]
          rw [hm1 f (by omega)]
          dsimp only
          simp only [List.reverse_nil, List.nil_append]
          rw [groupLoop_rparen_exit f rest _ (by omega)]
          simp
        | cons t2 ts'' =>
          obtain ⟨m1, hm1⟩ := ihn us hsz_us hus
            (' ' :: 'O' :: 'R' :: ' ' :: (renderMembers (t2 :: ts'') ++ ')' :: rest)) []
          obtain ⟨m3, hm3⟩ := ihn (t2 :: ts'') hsz' hok_ts' rest (QItem.orGroup us :: acc)
          refine ⟨m1 + m3 + 3, fun fuel hf => ?_⟩
          obtain ⟨f, rfl⟩ : ∃ f, fuel = (f + 1) + 1 := ⟨fuel - 2, by omega⟩
          have e1 : renderMembers (QItem.orGroup us :: t2 :: ts'') ++ ')' :: rest =
              '(' :: (renderMembers us ++ ')' :: (' ' :: 'O' :: 'R' :: ' ' ::
                (renderMembers (t2 :: ts'') ++ ')' :: rest))) := by
            simp [renderMembers, renderItem]
          rw [e1, groupLoop_group_tick (f + 1) _ _ acc (hskip _)]
          rw [hm1 (f + 1) (by omega)]
          dsimp only
          simp only [List.reverse_nil, List.nil_append]
          rw [groupLoop_or_tick f _ _]
          rw [renderMembers_skipWs (t2 :: ts'') (fun x hx => (hok_ts' x hx).1) rest]
          rw [hm3 f (by omega)]
          simp

theorem parseLoop_render : ∀ (n : Nat) (items : List QItem), lsize items ≤ n →
    (∀ t ∈ items, propsOkI t = true ∧ valuesOkI t = true) →
    ∀ acc : List QItem, ∃ m, ∀ fuel, m ≤ fuel →
      parseLoop fuel (renderAnd items) acc = some (.ok (acc.reverse ++ items)) := by
  intro n
  induction n with
  | zero =>
    intro items hsz hok acc
    cases items with
    | nil =>
      refine ⟨1, fun fuel hf => ?_⟩
      show parseLoop fuel [] acc = _
      rw [parseLoop_nil_exit fuel acc hf]
      simp
    | cons t ts' =>
      exfalso
      have := qsize_pos t
      simp [lsize] at hsz
      omega
  | succ n ihn =>
    intro items hsz hok acc
    cases items with
    | nil =>
      refine ⟨1, fun fuel hf => ?_⟩
      show parseLoop fuel [] acc = _
      rw [parseLoop_nil_exit fuel acc hf]
      simp
    | cons t ts' =>
      have hok_t := hok t (by simp)
      have hok_ts' : ∀ x ∈ ts', propsOkI x = true ∧ valuesOkI x = true :=
        fun x hx => hok x (by simp [hx])
      have hsz' : lsize ts' ≤ n := by
        have := qsize_pos t
        simp [lsize] at hsz
        omega
      cases t with
      | term p v =>
        have hpv : propOkB p = true := hok_t.1
        have hvv : valueOkB v = true := hok_t.2
        cases ts' with
        | nil =>
          refine ⟨2, fun fuel hf => ?_⟩
          obtain ⟨f, rfl⟩ : ∃ f, fuel = f + 1 := ⟨fuel - 1, by omega⟩
          have e1 : renderAnd [QItem.term p v] = renderTerm p v ++ [] := by
            simp [renderAnd, renderItem]
          rw [e1, parseLoop_term_tick f p v [] acc hpv hvv (Or.inl rfl)]
          rw [parseLoop_nil_exit f _ (by omega)]
          simp
        | cons t2 ts'' =>
          obtain ⟨m3, hm3⟩ := ihn (t2 :: ts'') hsz' hok_ts' (QItem.term p v :: acc)
          refine ⟨m3 + 1, fun fuel hf => ?_⟩
          obtain ⟨f, rfl⟩ : ∃ f, fuel = f + 1 := ⟨fuel - 1, by omega⟩
          have e1 : renderAnd (QItem.term p v :: t2 :: ts'') =
              renderTerm p v ++ (' ' :: renderAnd (t2 :: ts'')) := by
            simp [renderAnd, renderItem]
          rw [e1, parseLoop_term_tick f p v _ acc hpv hvv (Or.inr ⟨' ', _, rfl, by decide⟩)]
          rw [parseLoop_space f _ _]
          rw [hm3 f (by omega)]
          simp
      | orGroup us =>
        have hus : ∀ x ∈ us, propsOkI x = true ∧ valuesOkI x = true := by
          intro x hx
          have h1 : propsOkL us = true := hok_t.1
          have h2 : valuesOkL us = true := hok_t.2
          exact ⟨(propsOkL_iff us).mp h1 x hx, (valuesOkL_iff us).mp h2 x hx⟩
        have hsz_us : lsize us ≤ n := by
          have hq : qsize (QItem.orGroup us) = 1 + lsize us := by simp [qsize]
          simp [lsize, hq] at hsz
          omega
        have hskip : ∀ X : List Char,
            skipWs (renderMembers us ++ ')' :: X) = renderMembers us ++ ')' :: X :=
          fun X => renderMembers_skipWs us (fun x hx => (hus x hx).1) X
        cases ts' with
        | nil =>
          obtain ⟨m1, hm1⟩ := groupLoop_render n us hsz_us hus [] []
          refine ⟨m1 + 2, fun fuel hf => ?_⟩
          obtain ⟨f, rfl⟩ : ∃ f, fuel = f + 1 := ⟨fuel - 1, by omega⟩
          have e1 : renderAnd [QItem.orGroup us] =
              '(' :: (renderMembers us ++ ')' :: []) := by
            simp [renderAnd, renderItem]
          rw [e1, parseLoop_group_tick f _ _ acc (hskip _)]
          rw [hm1 f (by omega)]
          dsimp only
          simp only [List.reverse_nil, List.nil_append]
          rw [parseLoop_nil_exit f _ (by omega)]
          simp
        | cons t2 ts'' =>
          obtain ⟨m1, hm1⟩ := groupLoop_render n us hsz_us hus
            (' ' :: renderAnd (t2 :: ts'')) []
          obtain ⟨m3, hm3⟩ := ihn (t2 :: ts'') hsz' hok_ts' (QItem.orGroup us :: acc)
          refine ⟨m1 + m3 + 2, fun fuel hf => ?_⟩
          obtain ⟨f, rfl⟩ : ∃ f, fuel = f + 1 := ⟨fuel - 1, by omega⟩
          have e1 : renderAnd (QItem.orGroup us :: t2 :: ts'') =
              '(' :: (renderMembers us ++ ')' :: (' ' :: renderAnd (t2 :: ts''))) := by
            simp [renderAnd, renderItem]
          rw [e1, parseLoop_group_tick f _ _ acc (hskip _)]
          rw [hm1 f (by omega)]
          dsimp only
          simp only [List.reverse_nil, List.nil_append]
          rw [parseLoop_space f _ _]
          rw [hm3 f (by omega)]
          simp

theorem renderItem_last (t : QItem) (hp : propsOkI t = true) (hv : valuesOkI t = true) :
    ∃ l2 c, renderItem t = l2 ++ [c] ∧ isPyWs c = false := by
  cases t with
  | term p v =>
    have hvv : valueOkB v = true := hv
    simp only [valueOkB, Bool.and_eq_true, Bool.not_eq_true', List.isEmpty_eq_false] at hvv
    obtain ⟨hne, hok2⟩ := hvv
    by_cases hsp : v.data.any (fun c => c.toNat == 32) = true
    · refine ⟨p.data ++ ':' :: '"' :: v.data, '"', ?_, by decide⟩
      simp [renderItem, renderTerm, hsp]
    · rw [if_neg hsp] at hok2
      rcases List.eq_nil_or_concat v.data with hb | ⟨l2, c, hb⟩
      · exact absurd hb hne
      · rw [List.concat_eq_append] at hb
        have hcmem : c ∈ v.data := by rw [hb]; simp
        have hok3 := hok2
        simp only [Bool.and_eq_true] at hok3
        have hcf := List.all_eq_true.mp hok3.2 c hcmem
        simp only [Bool.and_eq_true, Bool.not_eq_true'] at hcf
        have hpyws : isPyWs c = false := hcf.2
        refine ⟨p.data ++ ':' :: l2, c, ?_, hpyws⟩
        simp only [renderItem, renderTerm]
        rw [if_neg hsp, hb]
        simp
  | orGroup us =>
    refine ⟨'(' :: renderMembers us, ')', by simp [renderItem], by decide⟩

theorem renderAnd_last (items : List QItem) (hne : items ≠ [])
    (hok : ∀ t ∈ items, propsOkI t = true ∧ valuesOkI t = true) :
    ∃ l2 c, renderAnd items = l2 ++ [c] ∧ isPyWs c = false := by
  induction items with
  | nil => exact absurd rfl hne
  | cons t ts ih =>
    cases ts with
    | nil =>
      obtain ⟨l2, c, he, hc⟩ := renderItem_last t (hok t (by simp)).1 (hok t (by simp)).2
      exact ⟨l2, c, by simpa [renderAnd] using he, hc⟩
    | cons t2 ts2 =>
      obtain ⟨l2, c, he, hc⟩ := ih (by simp) (fun x hx => hok x (by simp [hx]))
      refine ⟨renderItem t ++ ' ' :: l2, c, ?_, hc⟩
      rw [show renderAnd (t :: t2 :: ts2) = renderItem t ++ ' ' :: renderAnd (t2 :: ts2) from rfl,
        he]
      simp

theorem renderAnd_cons_head (t : QItem) (ts : List QItem) (hp : propsOkI t = true) :
    ∃ c tl, renderAnd (t :: ts) = c :: tl ∧ isPyWs c = false := by
  obtain ⟨c, tail, he, hws, hpy, h41⟩ := renderItem_head t hp
  cases ts with
  | nil => exact ⟨c, tail, by simp [renderAnd, he], hpy⟩
  | cons t2 ts2 =>
    refine ⟨c, tail ++ ' ' :: renderAnd (t2 :: ts2), ?_, hpy⟩
    rw [show renderAnd (t :: t2 :: ts2) = renderItem t ++ ' ' :: renderAnd (t2 :: ts2) from rfl,
      he]
    simp

theorem pyStrip_render (items : List QItem) (hne : items ≠ [])
    (hok : ∀ t ∈ items, propsOkI t = true ∧ valuesOkI t = true) :
    pyStrip (renderAnd items) = renderAnd items := by
  obtain ⟨l2, cl, hla, hcl⟩ := renderAnd_last items hne hok
  cases items with
  | nil => exact absurd rfl hne
  | cons t ts =>
    obtain ⟨c, tl, hh, hpy⟩ := renderAnd_cons_head t ts (hok t (by simp)).1
    unfold pyStrip
    have h1 : (renderAnd (t :: ts)).dropWhile isPyWs = renderAnd (t :: ts) := by
      rw [hh, List.dropWhile_cons_of_neg (by simp [hpy])]
    rw [h1, hla]
    have h2 : (l2 ++ [cl]).reverse = cl :: l2.reverse := by simp
    rw [h2, List.dropWhile_cons_of_neg (by simp [hcl])]
    simp

/-- Claim C3 (amended): for every query string on which parse succeeds
and in which every term value is non-empty and round-trips through the
renderer (a value containing a space holds no double quote and no
backslash; a value without a space does not begin with a double quote
and holds no whitespace or parenthesis), rendering the resulting AST
with `query_to_string` and re-parsing the rendered string terminates and
yields a structurally identical AST. -/
theorem roundtrip_reparse (q : String) (fuel : Nat) (t : AndGroup)
    (hp : parseQueryFuel fuel q = some (.ok t))
    (hv : ∀ i ∈ t.items, valuesOkI i = true) :
    ∃ n, ∀ m, n ≤ m → parseQueryFuel m (queryToString t) = some (.ok t) := by
  have hprops : ∀ i ∈ t.items, propsOkI i = true := by
    unfold parseQueryFuel at hp
    by_cases hs : (pyStrip q.data).isEmpty = true
    · rw [if_pos hs] at hp
      simp only [Option.some.injEq, Except.ok.injEq] at hp
      subst hp
      intro i hi
      simp at hi
    · rw [if_neg hs] at hp
      cases hl : parseLoop fuel (pyStrip q.data) [] with
      | none => rw [hl] at hp; simp at hp
      | some r =>
        cases r with
        | error e => rw [hl] at hp; simp at hp
        | ok items2 =>
          rw [hl] at hp
          simp only [Option.some.injEq, Except.ok.injEq] at hp
          subst hp
          intro i hi
          exact parseLoop_props fuel _ [] items2 hl (by simp) i hi
  obtain ⟨items⟩ := t
  cases items with
  | nil => exact ⟨0, fun m _ => rfl⟩
  | cons i is =>
    have hne : (i :: is) ≠ ([] : List QItem) := by simp
    have hok : ∀ x ∈ i :: is, propsOkI x = true ∧ valuesOkI x = true :=
      fun x hx => ⟨hprops x hx, hv x hx⟩
    obtain ⟨m0, hm0⟩ := parseLoop_render (lsize (i :: is)) (i :: is) le_rfl hok []
    refine ⟨m0, fun m hm => ?_⟩
    show parseQueryFuel m (String.mk (renderAnd (i :: is))) = _
    unfold parseQueryFuel
    rw [data_mk, pyStrip_render (i :: is) hne hok]
    obtain ⟨c, tl, hh, -⟩ := renderAnd_cons_head i is (hok i (by simp)).1
    rw [if_neg (by simp [hh])]
    rw [hm0 m hm]
    simp


/-- Claim C3 counterexample: the round-trip claim fails on the query
`a:""`, which parses to a term with an empty value; rendering that AST
gives `a:`, and re-parsing `a:` raises `ParseError` (`Expected value`)
instead of returning the original AST. -/
theorem roundtrip_fails :
    parseQuery "a:\"\"" = some (.ok ⟨[.term "a" ""]⟩) ∧
    queryToString ⟨[.term "a" ""]⟩ = "a:" ∧
    parseQuery "a:" = some (.error .expectedValue) :=
  ⟨rfl, rfl, rfl⟩

theorem roundtrip_reparse_witness :
    parseQueryFuel 100 "a:b (c:d OR e:f)" =
      some (.ok ⟨[.term "a" "b", .orGroup [.term "c" "d", .term "e" "f"]]⟩) ∧
    (∀ i ∈ (⟨[.term "a" "b", .orGroup [.term "c" "d", .term "e" "f"]]⟩ : AndGroup).items,
      valuesOkI i = true) ∧
    ∃ n, ∀ m, n ≤ m →
      parseQueryFuel m (queryToString
          ⟨[.term "a" "b", .orGroup [.term "c" "d", .term "e" "f"]]⟩) =
        some (.ok ⟨[.term "a" "b", .orGroup [.term "c" "d", .term "e" "f"]]⟩) :=
  ⟨rfl, by decide,
    roundtrip_reparse "a:b (c:d OR e:f)" 100
      ⟨[.term "a" "b", .orGroup [.term "c" "d", .term "e" "f"]]⟩ rfl (by decide)⟩

/-- Claim C10: the query `()` parses into an `AndGroup` holding a single
empty `OrGroup`, an empty `OrGroup` matches no event, and therefore the
query `()` matches no event. -/
theorem empty_group_never_matches :
    parseQuery "()" = some (.ok ⟨[.orGroup []]⟩) ∧
    (∀ ev : Event, evalItem ev (.orGroup []) = false) ∧
    (∀ ev : Event, evaluate ev ⟨[.orGroup []]⟩ = false) :=
  ⟨rfl, fun _ => rfl, fun _ => rfl⟩

end RulesQuery
